import Mathlib

/-!
Shallow embedding of the `index_alloc` allocator (Rust) and proofs about it.

The embedding follows the repository sources:
* `src/index.rs` / `src/lib.rs` — `MemoryRegion`, `MemoryIndex` and its
  operations (`available_index`, `find_region`, `size_region_available`,
  `split_region`, `sort_merge`);
* `src/lib.rs` — `IndexAllocator::try_reserve` / `try_free`;
* `src/box.rs` — the owning box round trip;
* `src/rc.rs` — the reference-counting control block (`RcBox`) protocol.

Machine integers (`usize`) are modelled as `Nat`; all arithmetic in the
sources stays far below `usize::MAX` on the inputs considered, and the sources
use no wrapping arithmetic on the index side.  The fixed-size array
`[Option<MemoryRegion>; INDEX_SIZE]` is modelled as a `List` of length
`INDEX_SIZE`.  A Rust panic (out-of-bounds indexing) is modelled by `Option`:
`none` is a panic, `some` a normal result.
-/

/-- Error kind surfaced at the allocator boundary (`IndexError` in `src/lib.rs`). -/
inductive IndexError where
  | NoSuchRegion
  | NoIndexAvailable
  | NoFittingRegion
  | OutOfMemory
  | RegionTooThin
deriving DecidableEq, Repr

/-- A region of the memory pool (`MemoryRegion` in `src/index.rs`).
The Rust field `from` is a Lean keyword, hence `from_`. -/
structure MemoryRegion where
  from_ : Nat
  size : Nat
  used : Bool
deriving DecidableEq, Repr

/-- `MemoryRegion::end`: the end address of the region (`end` is a Lean keyword). -/
def MemoryRegion.end_ (r : MemoryRegion) : Nat :=
  r.from_ + r.size

/-- `MemoryRegion::contains`: `from <= addr && addr < from + size`. -/
def MemoryRegion.contains (r : MemoryRegion) (addr : Nat) : Bool :=
  decide (r.from_ ≤ addr) && decide (addr < r.from_ + r.size)

/-- A region prepared to allocate a layout (`AllocationBaker` in `src/index.rs`). -/
structure AllocationBaker where
  region : Nat
  offset : Nat
deriving DecidableEq, Repr

/-- The slot array of a `MemoryIndex<INDEX_SIZE>`; the list length is `INDEX_SIZE`. -/
abbrev Regions := List (Option MemoryRegion)

/-- `MemoryIndex::empty(memory_size)` (also `MemoryIndex::new` in `src/lib.rs`):
all slots `None` except slot 0, which holds the single free region `[0, memory_size)`.
(`INDEX_SIZE = 0` would make the Rust write `regions[0]` panic; the spec requires
`N ≥ 1` and every use below has `N ≥ 1`.) -/
def emptyIndex (indexSize memorySize : Nat) : Regions :=
  (List.replicate indexSize none).set 0 (some ⟨0, memorySize, false⟩)

/-- `MemoryIndex::get_region`: `Err(NoSuchRegion)` on a `None` slot.
Rust indexes `self.regions[region]` and panics when `region` is out of range;
every caller in the sources passes an index obtained from a search over the
array, so that case is unreachable and is collapsed to `NoSuchRegion` here. -/
def getRegion (rs : Regions) (region : Nat) : Except IndexError MemoryRegion :=
  match rs[region]? with
  | some (some r) => .ok r
  | some none => .error .NoSuchRegion
  | none => .error .NoSuchRegion

/-- Helper for `available_index`: `iter().enumerate().find_map(..)` with the
running index made explicit. -/
def availableIndexAux (i : Nat) : Regions → Except IndexError Nat
  | [] => .error .NoIndexAvailable
  | none :: _ => .ok i
  | some _ :: rest => availableIndexAux (i + 1) rest

/-- `MemoryIndex::available_index`: index of the first `None` slot, or
`NoIndexAvailable` when every slot is occupied. -/
def available_index (rs : Regions) : Except IndexError Nat :=
  availableIndexAux 0 rs

/-- Helper for `find_region` with the running index made explicit. -/
def findRegionAux (addr : Nat) (i : Nat) : Regions → Except IndexError Nat
  | [] => .error .OutOfMemory
  | some r :: rest =>
      if r.contains addr then .ok i else findRegionAux addr (i + 1) rest
  | none :: rest => findRegionAux addr (i + 1) rest

/-- `MemoryIndex::find_region`: first slot whose region contains `addr`,
or `OutOfMemory`. -/
def find_region (addr : Nat) (rs : Regions) : Except IndexError Nat :=
  findRegionAux addr 0 rs

/-- Helper for the size-only `size_region_available` of `src/lib.rs`. -/
def sizeRegionAvailableAux (size : Nat) (i : Nat) : Regions → Except IndexError Nat
  | [] => .error .NoFittingRegion
  | some r :: rest =>
      if decide (size ≤ r.size) && !r.used then .ok i
      else sizeRegionAvailableAux size (i + 1) rest
  | none :: rest => sizeRegionAvailableAux size (i + 1) rest

/-- `MemoryIndex::size_region_available` of `src/lib.rs` (the revision used by
`try_reserve` there): first slot holding a free region with `region.size >= size`. -/
def size_region_available (size : Nat) (rs : Regions) : Except IndexError Nat :=
  sizeRegionAvailableAux size 0 rs

/-- Rust `usize::next_multiple_of`: the smallest multiple of `align` that is
`≥ a`.  Rust panics on `align = 0`; `Layout` guarantees `align ≥ 1`, and every
statement below assumes `0 < align`. -/
def next_multiple_of (a align : Nat) : Nat :=
  (a + align - 1) / align * align

/-- The alignment padding computed inside `size_region_available` of
`src/index.rs`:
`(memory_start + region.from).next_multiple_of(align) - memory_start - region.from`. -/
def regionOffset (memoryStart align : Nat) (r : MemoryRegion) : Nat :=
  next_multiple_of (memoryStart + r.from_) align - memoryStart - r.from_

/-- Helper for the layout-aware `size_region_available` of `src/index.rs`. -/
def sizeRegionAvailableLayoutAux (memoryStart size align : Nat) (i : Nat) :
    Regions → Except IndexError AllocationBaker
  | [] => .error .NoFittingRegion
  | some region :: rest =>
      if region.used then sizeRegionAvailableLayoutAux memoryStart size align (i + 1) rest
      else
        if region.from_ + regionOffset memoryStart align region + size ≤ region.end_ then
          .ok ⟨i, regionOffset memoryStart align region⟩
        else sizeRegionAvailableLayoutAux memoryStart size align (i + 1) rest
  | none :: rest => sizeRegionAvailableLayoutAux memoryStart size align (i + 1) rest

/-- `MemoryIndex::size_region_available` of `src/index.rs`: first free region
in which the aligned placement fits, returned together with the padding. -/
def size_region_available_layout (memoryStart size align : Nat) (rs : Regions) :
    Except IndexError AllocationBaker :=
  sizeRegionAvailableLayoutAux memoryStart size align 0 rs

/-- `MemoryIndex::split_region` (identical in `src/index.rs` and `src/lib.rs`):
reject with `RegionTooThin` when the region is strictly smaller than `size`,
find a vacant slot, shrink the left region to `size` and write the right
remainder (with the same `used` flag) at the vacant slot. -/
def split_region (rs : Regions) (region size : Nat) :
    Except IndexError (Regions × Nat × Nat) :=
  match getRegion rs region with
  | .error e => .error e
  | .ok r =>
    if r.size < size then .error .RegionTooThin
    else
      match available_index rs with
      | .error e => .error e
      | .ok rightIndex =>
        let leftRegion : MemoryRegion := ⟨r.from_, size, r.used⟩
        let rs1 := rs.set region (some leftRegion)
        let rs2 := rs1.set rightIndex (some ⟨leftRegion.end_, r.size - size, r.used⟩)
        .ok (rs2, region, rightIndex)

/-- The size normalisation performed by `IndexAllocator::try_reserve` in
`src/lib.rs`: `(layout.size() / layout.align() + 1) * layout.align()`. -/
def memSizeOf (size align : Nat) : Nat :=
  (size / align + 1) * align

/-- `IndexAllocator::try_reserve` of `src/lib.rs`: normalise the size, find a
free region of at least that size, split it, mark the left piece used and
return its `from` offset.  The state of the index is passed explicitly. -/
def try_reserve (size align : Nat) (rs : Regions) :
    Except IndexError (Nat × Regions) :=
  match size_region_available (memSizeOf size align) rs with
  | .error e => .error e
  | .ok splitingRegion =>
    match split_region rs splitingRegion (memSizeOf size align) with
    | .error e => .error e
    | .ok (rs1, regionIndex, _) =>
      match getRegion rs1 regionIndex with
      | .error e => .error e
      | .ok region =>
        .ok (region.from_, rs1.set regionIndex (some ⟨region.from_, region.size, true⟩))

/-- The comparator of `sort_merge`, as a `Bool`-valued "less or equal":
`Some` regions ascending by `from`, every `Some` before every `None`. -/
def regionLE (a b : Option MemoryRegion) : Bool :=
  match a, b with
  | some r1, some r2 => decide (r1.from_ ≤ r2.from_)
  | some _, none => true
  | none, some _ => false
  | none, none => true

/-- Insert into a `regionLE`-sorted list. -/
def insortRegion (x : Option MemoryRegion) : Regions → Regions
  | [] => [x]
  | y :: ys => if regionLE x y then x :: y :: ys else y :: insortRegion x ys

/-- The sorting phase of `sort_merge`.  Rust uses `sort_unstable_by` with the
comparator modelled by `regionLE`; on ties (equal `from`, which requires
zero-sized regions) the Rust order is unspecified and this stable insertion
sort is one refinement of it.  No input considered below has ties. -/
def sortRegions : Regions → Regions
  | [] => []
  | x :: xs => insortRegion x (sortRegions xs)

/-- Exit of the inner `for i in counter..INDEX_SIZE` scan of `sort_merge`
(`src/index.rs`): it stops at a used region, at a vacant slot, or by reaching
the end of the array inside a free run (`i + 1 == INDEX_SIZE`). -/
inductive ScanExit where
  | used (i size : Nat)
  | vacant (i size : Nat)
  | atEnd (size : Nat)
deriving DecidableEq, Repr

/-- The inner scan of the merge phase, over the tail `regions[i..]` of the
array; `i` is the absolute index of the head of the tail and `size` the
accumulated size of the free run.  Mirrors the loop body order of
`src/index.rs`: a used region stops the run before its size is added; a free
region adds its size, and if it sits in the final slot the whole pass ends
(`break 'merge_loop`).  The `[]` case is unreachable (the outer loop only
starts a scan at an in-range slot holding a region). -/
def merge_scan : Regions → Nat → Nat → ScanExit
  | [], _, size => .atEnd size
  | none :: _, i, size => .vacant i size
  | some r :: rest, i, size =>
    if r.used then .used i size
    else if rest.isEmpty then .atEnd (size + r.size)
    else merge_scan rest (i + 1) (size + r.size)

/-- The outer `while let Some(region) = &self.regions[counter]` loop of the
merge phase of `sort_merge` (`src/index.rs`), with a write cursor
`newCounter` and a read cursor `counter`.  Reading `regions[counter]` with
`counter` out of range is the Rust panic, modelled as `none`.  The `fuel`
argument only makes the recursion structural: the loop strictly increases
`counter`, so starting from `fuel = length + 1` the fuel never runs out
before the loop exits or panics, and the fuel-exhaustion branch (also `none`)
is unreachable from `sort_merge` below.  On success it returns the array
together with the final `new_counter`. -/
def merge_loop : Nat → Regions → Nat → Nat → Option (Regions × Nat)
  | 0, _, _, _ => none
  | fuel + 1, rs, counter, newCounter =>
    match rs[counter]? with
    | none => none
    | some none => some (rs, newCounter)
    | some (some region) =>
      if region.used then
        merge_loop fuel (rs.set newCounter (some region)) (counter + 1) (newCounter + 1)
      else
        match merge_scan (rs.drop counter) counter 0 with
        | .used i size =>
            merge_loop fuel (rs.set newCounter (some ⟨region.from_, size, false⟩)) i (newCounter + 1)
        | .vacant i size =>
            merge_loop fuel (rs.set newCounter (some ⟨region.from_, size, false⟩)) i (newCounter + 1)
        | .atEnd size =>
            some (rs.set newCounter (some ⟨region.from_, size, false⟩), newCounter)

/-- The final `for i in new_counter..INDEX_SIZE { self.regions[i] = None }`
of `sort_merge`: every slot from `k` on is erased. -/
def eraseFrom (rs : Regions) (k : Nat) : Regions :=
  rs.take k ++ List.replicate (rs.length - k) none

/-- `MemoryIndex::sort_merge` of `src/index.rs`: sort, merge free runs in
place, erase the tail.  `none` is the out-of-bounds panic of the merge loop. -/
def sort_merge (rs : Regions) : Option Regions :=
  match merge_loop ((sortRegions rs).length + 1) (sortRegions rs) 0 0 with
  | some (rs1, newCounter) => some (eraseFrom rs1 newCounter)
  | none => none

/-- `IndexAllocator::try_free` of `src/lib.rs` (with `sort_merge` as in
`src/index.rs`): find the region containing `addr`, clear its `used` flag and
run the coalesce pass.  `none` is a panic inside `sort_merge`. -/
def try_free (addr : Nat) (rs : Regions) : Option (Except IndexError Regions) :=
  match find_region addr rs with
  | .error e => some (.error e)
  | .ok regionIndex =>
    match getRegion rs regionIndex with
    | .error e => some (.error e)
    | .ok r =>
      match sort_merge (rs.set regionIndex (some ⟨r.from_, r.size, false⟩)) with
      | some rs1 => some (.ok rs1)
      | none => none

/-- The index effect of `Box::try_new(val, allocator)` (`src/box.rs`) followed
by dropping the box: `try_new` reserves `Layout::for_value(&val)` and stores
the value at the returned offset (the byte buffer itself is outside the index
model); `drop` frees at the value's address, whose pool offset is exactly the
offset `try_reserve` returned. -/
def box_round_trip (size align : Nat) (rs : Regions) :
    Option (Except IndexError Regions) :=
  match try_reserve size align rs with
  | .error e => some (.error e)
  | .ok (addr, rs1) => try_free addr rs1

/-- The control block of `Rc` (`RcBox` in `src/rc.rs`): the value reference
(`None` once the value region has been freed) and the two counters.  The
value reference is abstracted to a `Nat` identity. -/
structure RcBoxState where
  val : Option Nat
  strong : Nat
  weak : Nat
deriving DecidableEq, Repr

/-- `Rc::downgrade`: increment the weak count; the returned `Weak` shares the
same control block. -/
def rc_downgrade (b : RcBoxState) : RcBoxState :=
  { b with weak := b.weak + 1 }

/-- `Weak::upgrade`: when `strong > 0`, increment the strong count and return
`Some` of an `Rc` on the same control block; otherwise `None`. -/
def weak_upgrade (b : RcBoxState) : Option RcBoxState :=
  if 0 < b.strong then some { b with strong := b.strong + 1 } else none

/-- `Rc::drop` (`src/rc.rs`): decrement `strong`; when it reaches 0 free the
value region and set `val` to `None` (`try_free_inner`), and when moreover
`weak == 0` free the control block region itself.  Returns the control-block
state together with two flags: value region freed, control-block region
freed.  The allocator calls themselves act on the index, not on these fields. -/
def rc_drop (b : RcBoxState) : RcBoxState × Bool × Bool :=
  let b1 : RcBoxState := { b with strong := b.strong - 1 }
  if b1.strong = 0 then
    ({ b1 with val := none }, true, decide (b1.weak = 0))
  else
    (b1, false, false)

/-- `Weak::drop` (`src/rc.rs`): decrement `weak`; free the control block when
both counters are 0.  Returns the state and whether the block was freed. -/
def weak_drop (b : RcBoxState) : RcBoxState × Bool :=
  let b1 : RcBoxState := { b with weak := b.weak - 1 }
  (b1, decide (b1.strong = 0) && decide (b1.weak = 0))

/-- Does some region of the index contain address `a`? -/
def containsAddr (rs : Regions) (a : Nat) : Bool :=
  rs.any fun o => match o with
    | some r => r.contains a
    | none => false

/-- Every region of the index lies inside `[0, m)`. -/
def regionsWithin (m : Nat) (rs : Regions) : Bool :=
  rs.all fun o => match o with
    | some r => decide (r.from_ + r.size ≤ m)
    | none => true

/-- Two optional regions do not overlap: two `Some` regions share no address
(half-open interval test, correct also for zero-sized regions). -/
def optDisjoint (o1 o2 : Option MemoryRegion) : Bool :=
  match o1, o2 with
  | some r1, some r2 => decide (min r1.end_ r2.end_ ≤ max r1.from_ r2.from_)
  | _, _ => true

/-- The regions of the index are pairwise non-overlapping. -/
def pairwiseDisjoint : Regions → Bool
  | [] => true
  | o :: rest => rest.all (optDisjoint o) && pairwiseDisjoint rest

/-- The `Some` regions of the index partition `[0, m)`: every address below
`m` is covered, every region stays below `m`, and no two regions overlap. -/
def regionsPartition (m : Nat) (rs : Regions) : Prop :=
  ((List.range m).all (containsAddr rs) && regionsWithin m rs && pairwiseDisjoint rs) = true

instance (m : Nat) (rs : Regions) : Decidable (regionsPartition m rs) := by
  unfold regionsPartition; infer_instance

/-- Every error produced by `available_index` is `NoIndexAvailable`. -/
theorem availableIndexAux_error :
    ∀ (l : Regions) (i : Nat) (e : IndexError),
      availableIndexAux i l = .error e → e = .NoIndexAvailable := by
  intro l
  induction l with
  | nil =>
      intro i e h
      simp only [availableIndexAux, Except.error.injEq] at h
      exact h.symm
  | cons hd tl ih =>
      intro i e h
      cases hd with
      | none => simp [availableIndexAux] at h
      | some r => exact ih (i + 1) e h

/-- Restated for the wrapper. -/
theorem available_index_error {rs : Regions} {e : IndexError}
    (h : available_index rs = .error e) : e = .NoIndexAvailable :=
  availableIndexAux_error rs 0 e h

deriving instance DecidableEq for Except

/-- C1: the coverage invariant fails on the code.  On `M = 1`, `N = 2`, the
completed sequence `try_reserve(size 0, align 1)` (padded to 1 byte, consuming
both slots via the zero-sized right piece) followed by `try_free 0` leaves the
index with no region at all: the merge loop writes the merged free region at
`new_counter` without incrementing it, and the tail-erase loop then overwrites
it, so the union of the regions is empty instead of `[0, 1)`. -/
theorem c1_coverage_lost_after_reserve_free :
    try_reserve 0 1 (emptyIndex 2 1) =
      .ok (0, [some ⟨0, 1, true⟩, some ⟨1, 0, false⟩]) ∧
    try_free 0 [some ⟨0, 1, true⟩, some ⟨1, 0, false⟩] = some (.ok [none, none]) ∧
    ¬ regionsPartition 1 [none, none] := by
  refine ⟨by decide, by decide, by decide⟩

/-- C2: a free run that reaches the final slot of the array is not emitted.
On the two-slot index `[{0,32,free}, {32,32,free}]` (a partition of `[0,64)`)
`sort_merge` hits the `i + 1 == INDEX_SIZE` branch, writes the merged region
`{0,64,free}` at `new_counter = 0` without incrementing `new_counter`, and the
final erase loop overwrites it: the result is `[None, None]`, not
`[Some {0,64,free}, None]`. -/
theorem c2_final_slot_free_run_erased :
    regionsPartition 64 [some ⟨0, 32, false⟩, some ⟨32, 32, false⟩] ∧
    sort_merge [some ⟨0, 32, false⟩, some ⟨32, 32, false⟩] = some [none, none] ∧
    sort_merge [some ⟨0, 32, false⟩, some ⟨32, 32, false⟩] ≠
      some [some ⟨0, 64, false⟩, none] := by
  refine ⟨by decide, by decide, by decide⟩

/-- C3: `sort_merge` does not terminate normally on every index state.  When
all `N` slots are occupied and the region with the largest `from` is used, the
outer loop increments `counter` up to `INDEX_SIZE` and then reads
`self.regions[INDEX_SIZE]`, an out-of-bounds access that panics in Rust
(modelled as `none`).  Shown on the one-slot index `[Some {0,1,used}]` and on
the two-slot index `[Some {0,1,free}, Some {1,1,used}]`. -/
theorem c3_sort_merge_panics_on_full_index :
    sort_merge [some ⟨0, 1, true⟩] = none ∧
    sort_merge [some ⟨0, 1, false⟩, some ⟨1, 1, true⟩] = none := by
  refine ⟨by decide, by decide⟩

/-- C8: `Box::try_new(v); drop` does not restore the prior index state.  On a
fresh `M = 2`, `N = 2` allocator, boxing a 1-byte value (layout size 1,
align 1, padded to 2 bytes) and dropping it yields the index `[None, None]`
instead of the prior `[Some {0,2,free}, None]`: the drop's `try_free` runs the
coalesce pass, which erases the merged free run that reaches the final slot. -/
theorem c8_box_round_trip_not_restored :
    emptyIndex 2 2 = [some ⟨0, 2, false⟩, none] ∧
    box_round_trip 1 1 (emptyIndex 2 2) = some (.ok [none, none]) ∧
    ([none, none] : Regions) ≠ [some ⟨0, 2, false⟩, none] := by
  refine ⟨by decide, by decide, by decide⟩

/-- C6 counterexample: splitting a region of size 4 with split size exactly 4
is not rejected: it performs the split, consumes the fresh slot 1 and writes a
zero-sized right region `{4,0,free}` there, so the index no longer keeps every
region at size > 0. -/
theorem c6_counterexample_exact_split :
    split_region [some ⟨0, 4, false⟩, none] 0 4 =
      .ok ([some ⟨0, 4, false⟩, some ⟨4, 0, false⟩], 0, 1) ∧
    split_region [some ⟨0, 4, false⟩, none] 0 4 ≠ .error .RegionTooThin := by
  refine ⟨by decide, by decide⟩

/-- C6 (amended): `split_region` rejects with `RegionTooThin` exactly when the
requested split size strictly exceeds the region's size.  With split size
exactly equal to the region's size it is not rejected: if a vacant slot
exists it performs the split, consuming that slot and writing a zero-sized
right region that carries the same `used` flag; if no vacant slot exists it
fails with `NoIndexAvailable`. -/
theorem c6_split_exact_size_behaviour (rs : Regions) (i : Nat) (r : MemoryRegion)
    (h : rs[i]? = some (some r)) :
    (∀ k, split_region rs i k = .error .RegionTooThin ↔ r.size < k) ∧
    (∀ j, available_index rs = .ok j →
      split_region rs i r.size =
        .ok ((rs.set i (some ⟨r.from_, r.size, r.used⟩)).set j
              (some ⟨r.from_ + r.size, 0, r.used⟩), i, j)) ∧
    (∀ e, available_index rs = .error e → split_region rs i r.size = .error e) := by
  have hg : getRegion rs i = .ok r := by simp [getRegion, h]
  refine ⟨?_, ?_, ?_⟩
  · intro k
    constructor
    · intro hk
      by_contra hlt
      push_neg at hlt
      have hnot : ¬ r.size < k := by omega
      unfold split_region at hk
      rw [hg] at hk
      simp only [hnot, if_false] at hk
      cases hav : available_index rs with
      | error e =>
          rw [hav] at hk
          simp only [Except.error.injEq] at hk
          have := available_index_error hav
          subst this
          exact absurd hk.symm (by simp)
      | ok j =>
          rw [hav] at hk
          simp at hk
    · intro hlt
      unfold split_region
      rw [hg]
      simp [hlt]
  · intro j hj
    unfold split_region
    rw [hg]
    simp only [Nat.lt_irrefl, if_false, hj]
    simp [MemoryRegion.end_, Nat.sub_self]
  · intro e he
    unfold split_region
    rw [hg]
    simp [Nat.lt_irrefl, he]

/-- C6 witness: the amended behaviour evaluated on the two-slot index
`[Some {0,4,free}, None]` with split size exactly 4. -/
theorem c6_split_exact_size_behaviour_witness :
    ([some ⟨0, 4, false⟩, none] : Regions)[0]? = some (some ⟨0, 4, false⟩) ∧
    available_index [some ⟨0, 4, false⟩, none] = .ok 1 ∧
    split_region [some ⟨0, 4, false⟩, none] 0 4 =
      .ok ((([some ⟨0, 4, false⟩, none] : Regions).set 0 (some ⟨0, 4, false⟩)).set 1
            (some ⟨0 + 4, 0, false⟩), 0, 1) :=
  ⟨by decide, by decide,
    (c6_split_exact_size_behaviour [some ⟨0, 4, false⟩, none] 0 ⟨0, 4, false⟩
      (by decide)).2.1 1 (by decide)⟩

/-- C9: while at least one strong reference is live (`strong > 0`),
`upgrade(downgrade(rc))` yields `Some` of an `Rc` on the same control block
with the same underlying value reference and an incremented strong count;
once the last `Rc` has been dropped (`strong` was 1), the value region is
freed, `val` is `None`, `upgrade` on any surviving `Weak` yields `None`, and
when a `Weak` survives (`weak > 0`) the control block itself is not freed. -/
theorem c9_upgrade_downgrade_roundtrip (b : RcBoxState) :
    (0 < b.strong →
      weak_upgrade (rc_downgrade b) = some ⟨b.val, b.strong + 1, b.weak + 1⟩) ∧
    (b.strong = 1 →
      (rc_drop b).1.val = none ∧ (rc_drop b).1.strong = 0 ∧
      weak_upgrade (rc_drop b).1 = none ∧
      (0 < b.weak → (rc_drop b).2.2 = false)) := by
  constructor
  · intro h
    simp [weak_upgrade, rc_downgrade, h]
  · intro h
    refine ⟨?_, ?_, ?_, ?_⟩
    · simp [rc_drop, h]
    · simp [rc_drop, h]
    · simp [rc_drop, h, weak_upgrade]
    · intro hw
      simp [rc_drop, h]
      omega

/-- C9 witness: evaluated on a control block with one strong and one weak
reference. -/
theorem c9_upgrade_downgrade_roundtrip_witness :
    0 < (1 : Nat) ∧
    weak_upgrade (rc_downgrade ⟨some 7, 1, 0⟩) = some ⟨some 7, 2, 1⟩ ∧
    weak_upgrade (rc_drop ⟨some 7, 1, 1⟩).1 = none ∧
    (rc_drop ⟨some 7, 1, 1⟩).2.2 = false :=
  ⟨by decide,
    (c9_upgrade_downgrade_roundtrip ⟨some 7, 1, 0⟩).1 (by decide),
    ((c9_upgrade_downgrade_roundtrip ⟨some 7, 1, 1⟩).2 (by decide)).2.2.1,
    ((c9_upgrade_downgrade_roundtrip ⟨some 7, 1, 1⟩).2 (by decide)).2.2.2 (by decide)⟩

/-- C4 counterexample: `try_reserve` of `src/lib.rs` never consults the
alignment when placing.  On the valid index `[{0,1,used},{1,7,free},-,-]`
(a partition of `[0,8)`, reached from a fresh allocator by one reservation),
requesting `size 1, align 2` succeeds at offset 1, and already with pool base
address 0 the absolute address `0 + 1` is not a multiple of the alignment 2. -/
theorem c4_counterexample_misaligned :
    regionsPartition 8 [some ⟨0, 1, true⟩, some ⟨1, 7, false⟩, none, none] ∧
    try_reserve 1 2 [some ⟨0, 1, true⟩, some ⟨1, 7, false⟩, none, none] =
      .ok (1, [some ⟨0, 1, true⟩, some ⟨1, 2, true⟩, some ⟨3, 5, false⟩, none]) ∧
    (0 + 1) % 2 ≠ 0 := by
  refine ⟨by decide, by decide, by decide⟩

/-- C5 counterexample: requesting exactly `M` bytes at alignment 1 in a fresh
allocator does not succeed.  `try_reserve` normalises the size to
`(size / align + 1) * align = M + 1`, which exceeds the single free region, so
the request fails with `NoFittingRegion` (here `M = 1`, `N = 2`). -/
theorem c5_counterexample_full_request_fails :
    try_reserve 1 1 (emptyIndex 2 1) = .error .NoFittingRegion := by
  decide

/-- If the slot holds a region, `getRegion` returns it. -/
theorem getRegion_eq_ok {rs : Regions} {i : Nat} {r : MemoryRegion}
    (h : rs[i]? = some (some r)) : getRegion rs i = .ok r := by
  simp [getRegion, h]

/-- Characterisation of a successful size-only placement search: the returned
slot holds a free region of at least the requested size. -/
theorem sizeRegionAvailableAux_ok {s : Nat} :
    ∀ {l : Regions} {i0 i : Nat}, sizeRegionAvailableAux s i0 l = .ok i →
      ∃ r, i0 ≤ i ∧ l[i - i0]? = some (some r) ∧ s ≤ r.size ∧ r.used = false := by
  intro l
  induction l with
  | nil => intro i0 i h; simp [sizeRegionAvailableAux] at h
  | cons hd tl ih =>
      intro i0 i h
      cases hd with
      | some r =>
          by_cases hc : (decide (s ≤ r.size) && !r.used) = true
          · rw [sizeRegionAvailableAux, if_pos hc] at h
            simp only [Except.ok.injEq] at h
            subst h
            simp only [Bool.and_eq_true, decide_eq_true_eq, Bool.not_eq_true'] at hc
            exact ⟨r, Nat.le_refl _, by simp, hc.1, hc.2⟩
          · rw [sizeRegionAvailableAux, if_neg hc] at h
            obtain ⟨r', hle, hget, hs, hu⟩ := ih h
            refine ⟨r', by omega, ?_, hs, hu⟩
            have hi : i - i0 = (i - (i0 + 1)) + 1 := by omega
            rw [hi]
            simpa using hget
      | none =>
          rw [sizeRegionAvailableAux] at h
          obtain ⟨r', hle, hget, hs, hu⟩ := ih h
          refine ⟨r', by omega, ?_, hs, hu⟩
          have hi : i - i0 = (i - (i0 + 1)) + 1 := by omega
          rw [hi]
          simpa using hget

/-- Wrapper form of `sizeRegionAvailableAux_ok`. -/
theorem size_region_available_ok {s : Nat} {rs : Regions} {i : Nat}
    (h : size_region_available s rs = .ok i) :
    ∃ r, rs[i]? = some (some r) ∧ s ≤ r.size ∧ r.used = false := by
  obtain ⟨r, _, hget, hs, hu⟩ := sizeRegionAvailableAux_ok h
  exact ⟨r, by simpa using hget, hs, hu⟩

/-- Characterisation of a successful vacant-slot search. -/
theorem availableIndexAux_ok :
    ∀ {l : Regions} {i0 j : Nat}, availableIndexAux i0 l = .ok j →
      i0 ≤ j ∧ l[j - i0]? = some none := by
  intro l
  induction l with
  | nil => intro i0 j h; simp [availableIndexAux] at h
  | cons hd tl ih =>
      intro i0 j h
      cases hd with
      | none =>
          simp only [availableIndexAux, Except.ok.injEq] at h
          subst h
          simp
      | some r =>
          rw [availableIndexAux] at h
          obtain ⟨hle, hget⟩ := ih h
          refine ⟨by omega, ?_⟩
          have hi : j - i0 = (j - (i0 + 1)) + 1 := by omega
          rw [hi]
          simpa using hget

/-- Wrapper form of `availableIndexAux_ok`. -/
theorem available_index_ok {rs : Regions} {j : Nat}
    (h : available_index rs = .ok j) : rs[j]? = some none := by
  simpa using (availableIndexAux_ok h).2

/-- The normalised size `(size / align + 1) * align` strictly exceeds `size`. -/
theorem lt_memSizeOf (size : Nat) {align : Nat} (ha : 0 < align) :
    size < memSizeOf size align := by
  have h1 : memSizeOf size align = size / align * align + align := Nat.succ_mul _ _
  have h2 : align * (size / align) + size % align = size := Nat.div_add_mod size align
  rw [Nat.mul_comm] at h2
  have h3 : size % align < align := Nat.mod_lt _ ha
  have h4 : size / align * align + size % align < size / align * align + align :=
    Nat.add_lt_add_left h3 _
  rw [h2] at h4
  rw [h1]
  exact h4

/-- The normalised size is a multiple of the alignment. -/
theorem align_dvd_memSizeOf (size align : Nat) : align ∣ memSizeOf size align :=
  Dvd.intro_left _ rfl

/-- Pointwise reading of `regionsWithin`. -/
theorem regionsWithin_spec {m : Nat} {rs : Regions} (h : regionsWithin m rs = true)
    {r : MemoryRegion} (hr : some r ∈ rs) : r.from_ + r.size ≤ m := by
  unfold regionsWithin at h
  rw [List.all_eq_true] at h
  have := h _ hr
  simpa using this

/-- C4 (amended): for every allocator state whose regions all lie inside
`[0, m)` and every request with `align ≥ 1`, a successful `try_reserve`
returning offset `o` places `[o, o + size)` inside `[0, m)` and wholly inside
a single used region of the resulting index, whose start is exactly `o`.  The
alignment clause `(base + o) % align = 0` of the original claim is dropped:
the cited `try_reserve` never consults the alignment when placing (see the
counterexample). -/
theorem c4_reserve_offset_in_used_region
    (m size align : Nat) (rs : Regions) (o : Nat) (rs1 : Regions)
    (ha : 0 < align) (hw : regionsWithin m rs = true)
    (h : try_reserve size align rs = .ok (o, rs1)) :
    o + size ≤ m ∧
    ∃ (i : Nat) (r : MemoryRegion), rs1[i]? = some (some r) ∧ r.used = true ∧
      r.from_ = o ∧ o + size ≤ r.from_ + r.size := by
  unfold try_reserve at h
  split at h
  · simp at h
  · rename_i sr h1
    obtain ⟨r0, hr0get, hr0size, hr0used⟩ := size_region_available_ok h1
    split at h
    · simp at h
    · rename_i rs2 ri snd h2
      split at h
      · simp at h
      · rename_i region hreg
        simp only [Except.ok.injEq, Prod.mk.injEq] at h
        obtain ⟨ho, hrs1⟩ := h
        unfold split_region at h2
        split at h2
        · simp at h2
        rename_i r0' hg0
        have hr0eq : r0' = r0 := by
          rw [getRegion_eq_ok hr0get] at hg0
          simpa using hg0.symm
        rw [hr0eq] at h2
        rw [if_neg (Nat.not_lt.2 hr0size)] at h2
        split at h2
        · simp at h2
        · rename_i j h3
          simp only [Except.ok.injEq, Prod.mk.injEq] at h2
          obtain ⟨hrs2, hri, hsnd⟩ := h2
          subst hri
          have hjn : rs[j]? = some none := available_index_ok h3
          have hne : j ≠ sr := by
            intro hEq
            rw [hEq, hr0get] at hjn
            simp at hjn
          have hsrlen : sr < rs.length := by
            rcases List.getElem?_eq_some_iff.mp hr0get with ⟨hh, _⟩
            exact hh
          have hget2 : rs2[sr]? =
              some (some ⟨r0.from_, memSizeOf size align, r0.used⟩) := by
            rw [← hrs2]
            rw [List.getElem?_set_ne hne]
            exact List.getElem?_set_self (by simpa using hsrlen)
          have hregion : region = ⟨r0.from_, memSizeOf size align, r0.used⟩ := by
            rw [getRegion_eq_ok hget2] at hreg
            simpa using hreg.symm
          have hfrom : region.from_ = r0.from_ := by rw [hregion]
          have hsize : region.size = memSizeOf size align := by rw [hregion]
          have hsrlen2 : sr < rs2.length := by
            rw [← hrs2]
            simpa using hsrlen
          have hle1 : size ≤ memSizeOf size align := Nat.le_of_lt (lt_memSizeOf size ha)
          have hle2 : r0.from_ + r0.size ≤ m :=
            regionsWithin_spec hw (List.getElem?_mem hr0get)
          refine ⟨by omega, sr, ⟨region.from_, region.size, true⟩, ?_, rfl, ?_, ?_⟩
          · rw [← hrs1]
            exact List.getElem?_set_self hsrlen2
          · exact ho
          · show o + size ≤ region.from_ + region.size
            omega

/-- C4 witness: the amended statement applied to the concrete reservation of
the counterexample state (`m = 8`). -/
theorem c4_reserve_offset_in_used_region_witness :
    0 < 2 ∧
    regionsWithin 8 [some ⟨0, 1, true⟩, some ⟨1, 7, false⟩, none, none] = true ∧
    (1 + 1 ≤ 8 ∧
      ∃ (i : Nat) (r : MemoryRegion),
        ([some ⟨0, 1, true⟩, some ⟨1, 2, true⟩, some ⟨3, 5, false⟩, none] :
          Regions)[i]? = some (some r) ∧ r.used = true ∧ r.from_ = 1 ∧
        1 + 1 ≤ r.from_ + r.size) :=
  ⟨by decide, by decide,
    c4_reserve_offset_in_used_region 8 1 2
      [some ⟨0, 1, true⟩, some ⟨1, 7, false⟩, none, none] 1
      [some ⟨0, 1, true⟩, some ⟨1, 2, true⟩, some ⟨3, 5, false⟩, none]
      (by decide) (by decide) (by decide)⟩

/-- The size-only search finds nothing among vacant slots. -/
theorem sizeRegionAvailableAux_replicate_none (s : Nat) :
    ∀ (k i : Nat), sizeRegionAvailableAux s i (List.replicate k none) =
      .error .NoFittingRegion := by
  intro k
  induction k with
  | zero => intro i; simp [sizeRegionAvailableAux]
  | succ n ih => intro i; rw [List.replicate_succ]; simp [sizeRegionAvailableAux, ih]

/-- A fresh index with at least two slots is the single free region followed
by vacant slots. -/
theorem emptyIndex_cons (k m : Nat) :
    emptyIndex (k + 1) m = some ⟨0, m, false⟩ :: List.replicate k none := by
  simp [emptyIndex, List.replicate_succ]

/-- C5 (amended): `try_reserve` normalises the requested size to
`(size / align + 1) * align`, a multiple of the alignment that strictly
exceeds the requested size.  Consequently, in a fresh allocator with `M ≥ 1`
bytes and `N ≥ 2` slots, requesting exactly `M` bytes at alignment 1 fails
with `NoFittingRegion` (the claim asserted it succeeds), while requesting
`M - 1` bytes at alignment 1 (normalised to `M`) succeeds at offset 0,
consuming a second slot for a zero-sized right region; while that allocation
is live, every further request with `align ≥ 1` fails with `NoFittingRegion`. -/
theorem c5_size_normalisation_and_exhaustion (M N : Nat) (hM : 1 ≤ M) (hN : 2 ≤ N) :
    (∀ s a : Nat, 0 < a → s < memSizeOf s a ∧ a ∣ memSizeOf s a) ∧
    try_reserve M 1 (emptyIndex N M) = .error .NoFittingRegion ∧
    try_reserve (M - 1) 1 (emptyIndex N M) =
      .ok (0, some ⟨0, M, true⟩ :: some ⟨M, 0, false⟩ :: List.replicate (N - 2) none) ∧
    (∀ s a : Nat, 0 < a →
      try_reserve s a
          (some ⟨0, M, true⟩ :: some ⟨M, 0, false⟩ :: List.replicate (N - 2) none) =
        .error .NoFittingRegion) := by
  obtain ⟨k, rfl⟩ : ∃ k, N = k + 2 := ⟨N - 2, by omega⟩
  have hempty : emptyIndex (k + 2) M = some ⟨0, M, false⟩ :: List.replicate (k + 1) none := by
    rw [show k + 2 = (k + 1) + 1 by rfl, emptyIndex_cons]
  have hms1 : memSizeOf M 1 = M + 1 := by simp [memSizeOf]
  have hms2 : memSizeOf (M - 1) 1 = M := by simp [memSizeOf]; omega
  refine ⟨?_, ?_, ?_, ?_⟩
  · intro s a ha
    exact ⟨lt_memSizeOf s ha, align_dvd_memSizeOf s a⟩
  · have h1 : size_region_available (M + 1) (some ⟨0, M, false⟩ :: List.replicate (k + 1) none) =
        .error .NoFittingRegion := by
      rw [size_region_available, sizeRegionAvailableAux, if_neg (by simp)]
      exact sizeRegionAvailableAux_replicate_none _ _ _
    rw [try_reserve, hempty, hms1, h1]
  · have h1 : size_region_available M (some ⟨0, M, false⟩ :: List.replicate (k + 1) none) =
        .ok 0 := by
      rw [size_region_available, sizeRegionAvailableAux, if_pos (by simp)]
    have h2 : available_index (some ⟨0, M, false⟩ :: List.replicate (k + 1) none) = .ok 1 := by
      rw [available_index, availableIndexAux, List.replicate_succ, availableIndexAux]
    have hg : getRegion (some ⟨0, M, false⟩ :: List.replicate (k + 1) none) 0 =
        .ok ⟨0, M, false⟩ := by
      simp [getRegion]
    have h3 : split_region (some ⟨0, M, false⟩ :: List.replicate (k + 1) none) 0 M =
        .ok (some ⟨0, M, false⟩ :: some ⟨M, 0, false⟩ :: List.replicate k none, 0, 1) := by
      unfold split_region
      simp only [hg]
      rw [if_neg (Nat.lt_irrefl M)]
      simp only [h2]
      simp [List.set, List.replicate_succ, MemoryRegion.end_]
    have hg2 : getRegion (some ⟨0, M, false⟩ :: some ⟨M, 0, false⟩ :: List.replicate k none) 0 =
        .ok ⟨0, M, false⟩ := by
      simp [getRegion]
    unfold try_reserve
    rw [hempty, hms2]
    simp only [h1, h3, hg2]
    simp [List.set, Nat.add_sub_cancel]
  · intro s a ha
    have hge : 1 ≤ memSizeOf s a := by
      have := lt_memSizeOf s ha
      omega
    have h1 : size_region_available (memSizeOf s a)
        (some ⟨0, M, true⟩ :: some ⟨M, 0, false⟩ :: List.replicate k none) =
        .error .NoFittingRegion := by
      rw [size_region_available, sizeRegionAvailableAux, if_neg (by simp)]
      rw [sizeRegionAvailableAux, if_neg (by simp; omega)]
      exact sizeRegionAvailableAux_replicate_none _ _ _
    rw [show k + 2 - 2 = k by omega]
    rw [try_reserve, h1]

/-- C5 witness: the amended statement evaluated at `M = 4`, `N = 3`. -/
theorem c5_size_normalisation_and_exhaustion_witness :
    1 ≤ 4 ∧ 2 ≤ 3 ∧
    try_reserve 4 1 (emptyIndex 3 4) = .error .NoFittingRegion ∧
    try_reserve 3 1 (emptyIndex 3 4) =
      .ok (0, some ⟨0, 4, true⟩ :: some ⟨4, 0, false⟩ :: List.replicate 1 none) ∧
    try_reserve 2 2 (some ⟨0, 4, true⟩ :: some ⟨4, 0, false⟩ :: List.replicate 1 none) =
      .error .NoFittingRegion :=
  ⟨by decide, by decide,
    (c5_size_normalisation_and_exhaustion 4 3 (by decide) (by decide)).2.1,
    (c5_size_normalisation_and_exhaustion 4 3 (by decide) (by decide)).2.2.1,
    (c5_size_normalisation_and_exhaustion 4 3 (by decide) (by decide)).2.2.2 2 2 (by decide)⟩

/-- `next_multiple_of a align` is the round-up of `a` to the alignment: it is
at least `a` and less than `a + align`. -/
theorem next_multiple_of_bounds (a : Nat) {align : Nat} (h : 0 < align) :
    a ≤ next_multiple_of a align ∧ next_multiple_of a align < a + align := by
  unfold next_multiple_of
  have hdm := Nat.div_add_mod (a + align - 1) align
  have hlt : (a + align - 1) % align < align := Nat.mod_lt _ h
  rw [Nat.mul_comm] at hdm
  omega

/-- `next_multiple_of a align` is a multiple of the alignment. -/
theorem next_multiple_of_dvd (a align : Nat) : align ∣ next_multiple_of a align :=
  dvd_mul_left align _

/-- The padding of a region aligns the absolute address and is minimal:
adding it to `memory_start + from` lands on a multiple of `align`, and it is
smaller than `align`. -/
theorem regionOffset_spec (ms : Nat) {align : Nat} (r : MemoryRegion) (h : 0 < align) :
    align ∣ (ms + r.from_ + regionOffset ms align r) ∧ regionOffset ms align r < align := by
  unfold regionOffset
  obtain ⟨h1, h2⟩ := next_multiple_of_bounds (ms + r.from_) h
  have hdvd := next_multiple_of_dvd (ms + r.from_) align
  constructor
  · have heq : ms + r.from_ + (next_multiple_of (ms + r.from_) align - ms - r.from_) =
        next_multiple_of (ms + r.from_) align := by omega
    rw [heq]
    exact hdvd
  · omega

/-- Characterisation of a successful layout-aware placement search: the
returned slot holds a free region in which the aligned placement fits, the
returned offset is the region's padding, and no earlier slot holds a free
fitting region. -/
theorem sizeRegionAvailableLayoutAux_ok {ms s al : Nat} :
    ∀ {l : Regions} {i0 : Nat} {b : AllocationBaker},
      sizeRegionAvailableLayoutAux ms s al i0 l = .ok b →
      ∃ r : MemoryRegion, i0 ≤ b.region ∧ l[b.region - i0]? = some (some r) ∧
        r.used = false ∧ b.offset = regionOffset ms al r ∧
        r.from_ + regionOffset ms al r + s ≤ r.end_ ∧
        ∀ j, i0 ≤ j → j < b.region → ∀ r' : MemoryRegion,
          l[j - i0]? = some (some r') → r'.used = false →
          ¬ (r'.from_ + regionOffset ms al r' + s ≤ r'.end_) := by
  intro l
  induction l with
  | nil => intro i0 b h; simp [sizeRegionAvailableLayoutAux] at h
  | cons hd tl ih =>
    intro i0 b h
    cases hd with
    | none =>
      rw [sizeRegionAvailableLayoutAux] at h
      obtain ⟨r, hle, hget, hu2, hoff, hfit, hmin⟩ := ih h
      refine ⟨r, by omega, ?_, hu2, hoff, hfit, ?_⟩
      · have hi : b.region - i0 = (b.region - (i0 + 1)) + 1 := by omega
        rw [hi]
        simpa using hget
      · intro j hj1 hj2 r' hget' hu'
        by_cases hji : j = i0
        · subst hji
          rw [Nat.sub_self] at hget'
          simp at hget'
        · have hi : j - i0 = (j - (i0 + 1)) + 1 := by omega
          rw [hi] at hget'
          simp only [List.getElem?_cons_succ] at hget'
          exact hmin j (by omega) hj2 r' hget' hu'
    | some region =>
      by_cases hu : region.used = true
      · rw [sizeRegionAvailableLayoutAux, if_pos hu] at h
        obtain ⟨r, hle, hget, hu2, hoff, hfit, hmin⟩ := ih h
        refine ⟨r, by omega, ?_, hu2, hoff, hfit, ?_⟩
        · have hi : b.region - i0 = (b.region - (i0 + 1)) + 1 := by omega
          rw [hi]
          simpa using hget
        · intro j hj1 hj2 r' hget' hu'
          by_cases hji : j = i0
          · subst hji
            rw [Nat.sub_self] at hget'
            simp only [List.getElem?_cons_zero, Option.some.injEq] at hget'
            rw [hget', hu'] at hu
            simp at hu
          · have hi : j - i0 = (j - (i0 + 1)) + 1 := by omega
            rw [hi] at hget'
            simp only [List.getElem?_cons_succ] at hget'
            exact hmin j (by omega) hj2 r' hget' hu'
      · have hufalse : region.used = false := by simpa using hu
        rw [sizeRegionAvailableLayoutAux, if_neg hu] at h
        by_cases hfit : region.from_ + regionOffset ms al region + s ≤ region.end_
        · rw [if_pos hfit] at h
          simp only [Except.ok.injEq] at h
          subst h
          refine ⟨region, Nat.le_refl _, by simp, hufalse, rfl, hfit, ?_⟩
          intro j hj1 hj2 r' hget' hu'
          have hj2' : j < i0 := hj2
          omega
        · rw [if_neg hfit] at h
          obtain ⟨r, hle, hget, hu2, hoff, hfit2, hmin⟩ := ih h
          refine ⟨r, by omega, ?_, hu2, hoff, hfit2, ?_⟩
          · have hi : b.region - i0 = (b.region - (i0 + 1)) + 1 := by omega
            rw [hi]
            simpa using hget
          · intro j hj1 hj2 r' hget' hu'
            by_cases hji : j = i0
            · subst hji
              rw [Nat.sub_self] at hget'
              simp only [List.getElem?_cons_zero, Option.some.injEq] at hget'
              rw [← hget']
              exact hfit
            · have hi : j - i0 = (j - (i0 + 1)) + 1 := by omega
              rw [hi] at hget'
              simp only [List.getElem?_cons_succ] at hget'
              exact hmin j (by omega) hj2 r' hget' hu'

/-- The layout-aware placement search fails exactly when no free region
admits the aligned placement. -/
theorem sizeRegionAvailableLayoutAux_error {ms s al : Nat} :
    ∀ {l : Regions} {i0 : Nat},
      sizeRegionAvailableLayoutAux ms s al i0 l = .error .NoFittingRegion ↔
      ∀ r : MemoryRegion, some r ∈ l → r.used = false →
        ¬ (r.from_ + regionOffset ms al r + s ≤ r.end_) := by
  intro l
  induction l with
  | nil => intro i0; simp [sizeRegionAvailableLayoutAux]
  | cons hd tl ih =>
    intro i0
    cases hd with
    | none =>
      rw [sizeRegionAvailableLayoutAux, ih]
      constructor
      · intro h r hmem hru
        exact h r (by simpa using hmem) hru
      · intro h r hmem hru
        exact h r (List.mem_cons_of_mem _ hmem) hru
    | some region =>
      by_cases hu : region.used = true
      · rw [sizeRegionAvailableLayoutAux, if_pos hu, ih]
        constructor
        · intro h r hmem hru
          rcases List.mem_cons.mp hmem with h1 | h2
          · exfalso
            have : r = region := by
              injection h1
            rw [this, hu] at hru
            simp at hru
          · exact h r h2 hru
        · intro h r hmem hru
          exact h r (List.mem_cons_of_mem _ hmem) hru
      · rw [sizeRegionAvailableLayoutAux, if_neg hu]
        have hufalse : region.used = false := by simpa using hu
        by_cases hfit : region.from_ + regionOffset ms al region + s ≤ region.end_
        · rw [if_pos hfit]
          constructor
          · intro h
            simp at h
          · intro h
            exact absurd hfit (h region (List.mem_cons_self _ _) hufalse)
        · rw [if_neg hfit, ih]
          constructor
          · intro h r hmem hru
            rcases List.mem_cons.mp hmem with h1 | h2
            · have : r = region := by
                injection h1
              rw [this]
              exact hfit
            · exact h r h2 hru
          · intro h r hmem hru
            exact h r (List.mem_cons_of_mem _ hmem) hru

/-- C7: the placement search of `src/index.rs` returns the first slot in
stored order holding a free region in which the aligned placement fits.  The
returned pad is `regionOffset`, i.e. the distance from `base + from` to its
round-up to a multiple of `align` (the absolute address `base + from + pad`
is a multiple of `align` and `pad < align`); the region fits exactly when
`from + pad + size ≤ end`; every earlier free region does not fit; and the
search fails with `NoFittingRegion` iff no free region fits. -/
theorem c7_placement_search_first_fit
    (memoryStart size align : Nat) (rs : Regions) (ha : 0 < align) :
    (∀ b : AllocationBaker,
      size_region_available_layout memoryStart size align rs = .ok b →
      ∃ r : MemoryRegion, rs[b.region]? = some (some r) ∧ r.used = false ∧
        b.offset = regionOffset memoryStart align r ∧
        align ∣ (memoryStart + r.from_ + b.offset) ∧ b.offset < align ∧
        r.from_ + b.offset + size ≤ r.end_ ∧
        ∀ j, j < b.region → ∀ r' : MemoryRegion, rs[j]? = some (some r') →
          r'.used = false →
          ¬ (r'.from_ + regionOffset memoryStart align r' + size ≤ r'.end_)) ∧
    (size_region_available_layout memoryStart size align rs = .error .NoFittingRegion ↔
      ∀ r : MemoryRegion, some r ∈ rs → r.used = false →
        ¬ (r.from_ + regionOffset memoryStart align r + size ≤ r.end_)) := by
  constructor
  · intro b h
    obtain ⟨r, _, hget, hu, hoff, hfit, hmin⟩ := sizeRegionAvailableLayoutAux_ok h
    obtain ⟨hdvd, hlt⟩ := regionOffset_spec memoryStart r ha
    refine ⟨r, by simpa using hget, hu, hoff, ?_, ?_, ?_, ?_⟩
    · rw [hoff]
      exact hdvd
    · rw [hoff]
      exact hlt
    · rw [hoff]
      exact hfit
    · intro j hj r' hget' hu'
      exact hmin j (Nat.zero_le _) hj r' (by simpa using hget') hu'
  · exact sizeRegionAvailableLayoutAux_error

/-- The pre-populated index of the alignment-padding scenario (the repository
test `test_index_size_region_available` of `src/index.rs`). -/
def scenarioIndex : Regions :=
  [some ⟨0, 8, false⟩, some ⟨8, 32, true⟩, some ⟨40, 16, false⟩,
   some ⟨56, 32, true⟩, some ⟨88, 32, false⟩, some ⟨120, 8, false⟩]

/-- C7 witness: on the scenario index, requesting `size 16, align 16` from
base 0 is placed in the region at `from = 88` (slot 4) with pad 8, exactly as
the repository test asserts. -/
theorem c7_placement_search_first_fit_witness :
    0 < 16 ∧
    size_region_available_layout 0 16 16 scenarioIndex = .ok ⟨4, 8⟩ ∧
    (∃ r : MemoryRegion, scenarioIndex[(4 : Nat)]? = some (some r) ∧
      r.used = false ∧ (8 : Nat) = regionOffset 0 16 r ∧
      (16 : Nat) ∣ (0 + r.from_ + 8) ∧ (8 : Nat) < 16 ∧
      r.from_ + 8 + 16 ≤ r.end_ ∧
      ∀ j, j < 4 → ∀ r' : MemoryRegion, scenarioIndex[j]? = some (some r') →
        r'.used = false →
        ¬ (r'.from_ + regionOffset 0 16 r' + 16 ≤ r'.end_)) :=
  ⟨by decide, by decide,
    (c7_placement_search_first_fit 0 16 16 scenarioIndex (by decide)).1 ⟨4, 8⟩ (by decide)⟩

/-- Insertion preserves membership. -/
theorem mem_insortRegion {x a : Option MemoryRegion} :
    ∀ {l : Regions}, x ∈ insortRegion a l ↔ x = a ∨ x ∈ l := by
  intro l
  induction l with
  | nil => simp [insortRegion]
  | cons y ys ih =>
      rw [insortRegion]
      by_cases hc : regionLE a y = true
      · rw [if_pos hc]
        simp [List.mem_cons]
      · rw [if_neg hc]
        simp only [List.mem_cons, ih]
        tauto

/-- The sorting phase preserves membership. -/
theorem mem_sortRegions {x : Option MemoryRegion} :
    ∀ {l : Regions}, x ∈ sortRegions l ↔ x ∈ l := by
  intro l
  induction l with
  | nil => simp [sortRegions]
  | cons y ys ih =>
      rw [sortRegions, mem_insortRegion]
      simp [List.mem_cons, ih]

/-- When the scanned tail holds a vacant slot, the inner scan stops at a used
region or at a vacant slot (never by running off the end), having passed only
free regions. -/
theorem merge_scan_stops :
    ∀ (t : Regions) (i s : Nat), none ∈ t →
      (∃ j s2, merge_scan t i s = .vacant j s2 ∧ i ≤ j ∧ j - i < t.length ∧
        t[j - i]? = some none ∧
        ∀ d, d < j - i → ∃ fr : MemoryRegion, t[d]? = some (some fr) ∧ fr.used = false) ∨
      (∃ j s2 u, merge_scan t i s = .used j s2 ∧ i ≤ j ∧ j - i < t.length ∧
        t[j - i]? = some (some u) ∧ u.used = true ∧
        ∀ d, d < j - i → ∃ fr : MemoryRegion, t[d]? = some (some fr) ∧ fr.used = false) := by
  intro t
  induction t with
  | nil => intro i s h; simp at h
  | cons hd rest ih =>
    intro i s h
    cases hd with
    | none =>
        left
        refine ⟨i, s, by rw [merge_scan], Nat.le_refl _, by simp, by simp, ?_⟩
        intro d hd
        omega
    | some r =>
      have hmem : none ∈ rest := by
        rcases List.mem_cons.mp h with h1 | h2
        · simp at h1
        · exact h2
      by_cases hu : r.used = true
      · right
        refine ⟨i, s, r, by rw [merge_scan, if_pos hu], Nat.le_refl _, by simp, by simp, hu, ?_⟩
        intro d hd
        omega
      · have hne : rest.isEmpty = false := by
          cases rest with
          | nil => simp at hmem
          | cons a b => rfl
        have heq : merge_scan (some r :: rest) i s = merge_scan rest (i + 1) (s + r.size) := by
          rw [merge_scan, if_neg hu, hne]
          simp
        have hufalse : r.used = false := by simpa using hu
        rcases ih (i + 1) (s + r.size) hmem with
          ⟨j, s2, hsc, hij, hlen, hget, hmin⟩ | ⟨j, s2, u, hsc, hij, hlen, hget, huu, hmin⟩
        · left
          refine ⟨j, s2, by rw [heq]; exact hsc, by omega, by simp; omega, ?_, ?_⟩
          · have hi : j - i = (j - (i + 1)) + 1 := by omega
            rw [hi]
            simpa using hget
          · intro d hd
            cases d with
            | zero => exact ⟨r, by simp, hufalse⟩
            | succ d' =>
                have : d' < j - (i + 1) := by omega
                obtain ⟨fr, h1, h2⟩ := hmin d' this
                exact ⟨fr, by simpa using h1, h2⟩
        · right
          refine ⟨j, s2, u, by rw [heq]; exact hsc, by omega, by simp; omega, ?_, huu, ?_⟩
          · have hi : j - i = (j - (i + 1)) + 1 := by omega
            rw [hi]
            simpa using hget
          · intro d hd
            cases d with
            | zero => exact ⟨r, by simp, hufalse⟩
            | succ d' =>
                have : d' < j - (i + 1) := by omega
                obtain ⟨fr, h1, h2⟩ := hmin d' this
                exact ⟨fr, by simpa using h1, h2⟩

/-- The merge loop neither panics nor exhausts its fuel as long as a vacant
slot remains at or after the read cursor: the loop exits normally before the
read cursor can run off the end of the array. -/
theorem merge_loop_no_panic :
    ∀ (fuel : Nat) (rs : Regions) (counter nc : Nat),
      nc ≤ counter →
      (∃ k, counter ≤ k ∧ rs[k]? = some none) →
      rs.length + 1 ≤ fuel + counter →
      ∃ out, merge_loop fuel rs counter nc = some out := by
  intro fuel
  induction fuel with
  | zero =>
      intro rs c nc hnc hk hfuel
      obtain ⟨k, hkc, hkn⟩ := hk
      have hklen : k < rs.length := (List.getElem?_eq_some_iff.mp hkn).1
      omega
  | succ fuel ih =>
      intro rs c nc hnc hk hfuel
      obtain ⟨k, hkc, hkn⟩ := hk
      have hklen : k < rs.length := (List.getElem?_eq_some_iff.mp hkn).1
      have hc : c < rs.length := by omega
      cases hcell : rs[c]? with
      | none =>
          rw [List.getElem?_eq_none_iff] at hcell
          omega
      | some cell =>
        cases cell with
        | none =>
            exact ⟨(rs, nc), by rw [merge_loop, hcell]⟩
        | some region =>
          by_cases hused : region.used = true
          · have hkc' : c + 1 ≤ k := by
              rcases Nat.eq_or_lt_of_le hkc with h1 | h1
              · exfalso; rw [h1, hkn] at hcell; simp at hcell
              · omega
            have hset : (rs.set nc (some region))[k]? = some none := by
              rw [List.getElem?_set_ne (by omega : nc ≠ k)]
              exact hkn
            obtain ⟨out, hout⟩ := ih (rs.set nc (some region)) (c + 1) (nc + 1)
              (by omega) ⟨k, by omega, hset⟩ (by simpa using by omega)
            refine ⟨out, ?_⟩
            simp only [merge_loop, hcell]
            rw [if_pos hused]
            exact hout
          · have hmemdrop : none ∈ rs.drop c := by
              have : (rs.drop c)[k - c]? = some none := by
                rw [List.getElem?_drop]
                rw [show c + (k - c) = k by omega]
                exact hkn
              exact List.getElem?_mem this
            rcases merge_scan_stops (rs.drop c) c 0 hmemdrop with
              ⟨j, s2, hsc, hij, hlen2, hjget, hmin⟩ |
              ⟨j, s2, u, hsc, hij, hlen2, hjget, huu, hmin⟩
            · -- the scan stopped at a vacant slot j
              have hjrs : rs[j]? = some none := by
                rw [List.getElem?_drop, show c + (j - c) = j by omega] at hjget
                exact hjget
              have hcj : c < j := by
                rcases Nat.eq_or_lt_of_le hij with h1 | h1
                · exfalso
                  rw [← h1, Nat.sub_self, List.getElem?_drop, Nat.add_zero, hcell] at hjget
                  simp at hjget
                · exact h1
              have hjlen : j < rs.length := by
                have := hlen2
                rw [List.length_drop] at this
                omega
              have hset : (rs.set nc (some ⟨region.from_, s2, false⟩))[j]? = some none := by
                rw [List.getElem?_set_ne (by omega : nc ≠ j)]
                exact hjrs
              obtain ⟨out, hout⟩ :=
                ih (rs.set nc (some ⟨region.from_, s2, false⟩)) j (nc + 1)
                  (by omega) ⟨j, Nat.le_refl _, hset⟩ (by simpa using by omega)
              refine ⟨out, ?_⟩
              simp only [merge_loop, hcell]
              rw [if_neg hused]
              simp only [hsc]
              exact hout
            · -- the scan stopped at a used region j
              have hcj : c < j := by
                rcases Nat.eq_or_lt_of_le hij with h1 | h1
                · exfalso
                  rw [← h1, Nat.sub_self, List.getElem?_drop, Nat.add_zero, hcell] at hjget
                  simp only [Option.some.injEq] at hjget
                  rw [← hjget] at huu
                  rw [huu] at hused
                  simp at hused
                · exact h1
              have hkj : j < k := by
                by_contra hcon
                push_neg at hcon
                rcases Nat.eq_or_lt_of_le hcon with h1 | h1
                · rw [List.getElem?_drop, show c + (j - c) = j by omega, ← h1, hkn] at hjget
                  simp at hjget
                · have hd : k - c < j - c := by omega
                  obtain ⟨fr, hfr, _⟩ := hmin (k - c) hd
                  rw [List.getElem?_drop, show c + (k - c) = k by omega, hkn] at hfr
                  simp at hfr
              have hset : (rs.set nc (some ⟨region.from_, s2, false⟩))[k]? = some none := by
                rw [List.getElem?_set_ne (by omega : nc ≠ k)]
                exact hkn
              obtain ⟨out, hout⟩ :=
                ih (rs.set nc (some ⟨region.from_, s2, false⟩)) j (nc + 1)
                  (by omega) ⟨k, by omega, hset⟩ (by simpa using by omega)
              refine ⟨out, ?_⟩
              simp only [merge_loop, hcell]
              rw [if_neg hused]
              simp only [hsc]
              exact hout

/-- `sort_merge` terminates normally (no panic) whenever the index retains at
least one vacant slot: after sorting, a vacant slot lies at or after every
read position, so the merge loop always exits before running off the end. -/
theorem sort_merge_some {rs : Regions} (h : none ∈ rs) :
    ∃ rs2, sort_merge rs = some rs2 := by
  have hmem : none ∈ sortRegions rs := mem_sortRegions.mpr h
  obtain ⟨k, hk⟩ := List.mem_iff_getElem?.mp hmem
  obtain ⟨out, hout⟩ := merge_loop_no_panic ((sortRegions rs).length + 1)
    (sortRegions rs) 0 0 (Nat.le_refl 0) ⟨k, Nat.zero_le _, hk⟩ (by omega)
  obtain ⟨o1, o2⟩ := out
  refine ⟨eraseFrom o1 o2, ?_⟩
  unfold sort_merge
  simp only [hout]

/-- Characterisation of a successful address lookup: the returned slot holds
a region containing the address. -/
theorem findRegionAux_ok {addr : Nat} :
    ∀ {l : Regions} {i0 i : Nat}, findRegionAux addr i0 l = .ok i →
      ∃ r : MemoryRegion, i0 ≤ i ∧ l[i - i0]? = some (some r) ∧
        r.contains addr = true := by
  intro l
  induction l with
  | nil => intro i0 i h; simp [findRegionAux] at h
  | cons hd tl ih =>
    intro i0 i h
    cases hd with
    | none =>
        rw [findRegionAux] at h
        obtain ⟨r, hle, hget, hcon⟩ := ih h
        refine ⟨r, by omega, ?_, hcon⟩
        have hi : i - i0 = (i - (i0 + 1)) + 1 := by omega
        rw [hi]
        simpa using hget
    | some r =>
        by_cases hc : r.contains addr = true
        · rw [findRegionAux, if_pos hc] at h
          simp only [Except.ok.injEq] at h
          subst h
          exact ⟨r, Nat.le_refl _, by simp, hc⟩
        · rw [findRegionAux, if_neg hc] at h
          obtain ⟨r', hle, hget, hcon⟩ := ih h
          refine ⟨r', by omega, ?_, hcon⟩
          have hi : i - i0 = (i - (i0 + 1)) + 1 := by omega
          rw [hi]
          simpa using hget

/-- The address lookup fails (with `OutOfMemory`) exactly when no region
contains the address. -/
theorem findRegionAux_error {addr : Nat} :
    ∀ {l : Regions} {i0 : Nat} {e : IndexError},
      findRegionAux addr i0 l = .error e ↔
      (e = .OutOfMemory ∧
        ∀ r : MemoryRegion, some r ∈ l → r.contains addr = false) := by
  intro l
  induction l with
  | nil =>
      intro i0 e
      simp only [findRegionAux, Except.error.injEq]
      constructor
      · intro h
        exact ⟨h.symm, by simp⟩
      · intro h
        exact h.1.symm
  | cons hd tl ih =>
    intro i0 e
    cases hd with
    | none =>
        rw [findRegionAux, ih]
        constructor
        · intro h
          refine ⟨h.1, ?_⟩
          intro r hmem
          exact h.2 r (by simpa using hmem)
        · intro h
          exact ⟨h.1, fun r hmem => h.2 r (List.mem_cons_of_mem _ hmem)⟩
    | some r =>
        by_cases hc : r.contains addr = true
        · rw [findRegionAux, if_pos hc]
          constructor
          · intro h
            simp at h
          · intro h
            exact absurd hc (by rw [h.2 r (List.mem_cons_self _ _)]; simp)
        · rw [findRegionAux, if_neg hc, ih]
          constructor
          · intro h
            refine ⟨h.1, ?_⟩
            intro r' hmem
            rcases List.mem_cons.mp hmem with h1 | h2
            · have : r' = r := by injection h1
              rw [this]
              simpa using hc
            · exact h.2 r' h2
          · intro h
            exact ⟨h.1, fun r' hmem => h.2 r' (List.mem_cons_of_mem _ hmem)⟩

/-- Setting an occupied slot preserves the presence of a vacant slot. -/
theorem none_mem_set {rs : Regions} {i : Nat} {r : MemoryRegion} {v : Option MemoryRegion}
    (hvac : none ∈ rs) (hi : rs[i]? = some (some r)) : none ∈ rs.set i v := by
  obtain ⟨k, hk⟩ := List.mem_iff_getElem?.mp hvac
  have hne : i ≠ k := by
    intro hEq
    rw [hEq, hk] at hi
    simp at hi
  refine List.mem_iff_getElem?.mpr ⟨k, ?_⟩
  rw [List.getElem?_set_ne hne]
  exact hk

/-- C10 (amended): on an index satisfying coverage that retains at least one
vacant slot, `try_free` accepts interior pointers and already-free regions:
whenever some region contains the pool offset, the lookup succeeds, the whole
containing region has its `used` flag cleared, the coalesce pass runs without
panicking, and `try_free` returns `Ok`; `try_free` fails with `OutOfMemory`
exactly when no region contains the offset.  (Without the vacant-slot
hypothesis the coalesce pass can panic: see the counterexample.) -/
theorem c10_try_free_interior_and_double_free (m addr : Nat) (rs : Regions)
    (hpart : regionsPartition m rs) (hvac : none ∈ rs) :
    (∀ i, find_region addr rs = .ok i →
      ∃ (r : MemoryRegion) (rs2 : Regions), rs[i]? = some (some r) ∧
        r.contains addr = true ∧
        sort_merge (rs.set i (some ⟨r.from_, r.size, false⟩)) = some rs2 ∧
        try_free addr rs = some (.ok rs2)) ∧
    ((∃ r : MemoryRegion, some r ∈ rs ∧ r.contains addr = true) →
      ∃ i, find_region addr rs = .ok i) ∧
    (try_free addr rs = some (.error .OutOfMemory) ↔
      ∀ r : MemoryRegion, some r ∈ rs → r.contains addr = false) := by
  have main : ∀ i, find_region addr rs = .ok i →
      ∃ (r : MemoryRegion) (rs2 : Regions), rs[i]? = some (some r) ∧
        r.contains addr = true ∧
        sort_merge (rs.set i (some ⟨r.from_, r.size, false⟩)) = some rs2 ∧
        try_free addr rs = some (.ok rs2) := by
    intro i hfind
    obtain ⟨r, _, hget, hcon⟩ := findRegionAux_ok hfind
    rw [Nat.sub_zero] at hget
    have hvac2 : none ∈ rs.set i (some ⟨r.from_, r.size, false⟩) := none_mem_set hvac hget
    obtain ⟨rs2, hsm⟩ := sort_merge_some hvac2
    refine ⟨r, rs2, hget, hcon, hsm, ?_⟩
    unfold try_free
    rw [hfind]
    simp only [getRegion_eq_ok hget, hsm]
  refine ⟨main, ?_, ?_⟩
  · intro ⟨r, hmem, hcon⟩
    cases hfind : find_region addr rs with
    | ok i => exact ⟨i, rfl⟩
    | error e =>
        have := (findRegionAux_error.mp hfind).2 r hmem
        rw [hcon] at this
        simp at this
  · constructor
    · intro h
      cases hfind : find_region addr rs with
      | ok i =>
          obtain ⟨r, rs2, _, _, _, hfree⟩ := main i hfind
          rw [hfree] at h
          simp at h
      | error e =>
          exact (findRegionAux_error.mp hfind).2
    · intro h
      have hfind : find_region addr rs = .error .OutOfMemory :=
        findRegionAux_error.mpr ⟨rfl, h⟩
      unfold try_free
      simp only [hfind]

/-- C10 witness: freeing the interior offset 1 of the used region `{0,2}` on
the index `[Some {0,2,used}, None]` (coverage of `[0,2)` holds): the lookup
finds slot 0, the whole region is freed and coalesced, and `try_free`
returns `Ok`. -/
theorem c10_try_free_interior_and_double_free_witness :
    regionsPartition 2 [some ⟨0, 2, true⟩, none] ∧
    (none ∈ ([some ⟨0, 2, true⟩, none] : Regions)) ∧
    (∃ (r : MemoryRegion) (rs2 : Regions),
      ([some ⟨0, 2, true⟩, none] : Regions)[(0 : Nat)]? = some (some r) ∧
      r.contains 1 = true ∧
      sort_merge (([some ⟨0, 2, true⟩, none] : Regions).set 0
        (some ⟨r.from_, r.size, false⟩)) = some rs2 ∧
      try_free 1 [some ⟨0, 2, true⟩, none] = some (.ok rs2)) :=
  ⟨by decide, by decide,
    (c10_try_free_interior_and_double_free 2 1 [some ⟨0, 2, true⟩, none]
      (by decide) (by decide)).1 0 (by decide)⟩

/-- C10 counterexample: on the fully occupied index `[{0,1,used},{1,1,used}]`
(which satisfies coverage of `[0,2)`), freeing offset 0 does not return `Ok`:
after clearing the flag the coalesce pass walks `counter` past the last slot
and reads `regions[INDEX_SIZE]`, panicking (modelled as `none`). -/
theorem c10_counterexample_panic_on_full :
    regionsPartition 2 [some ⟨0, 1, true⟩, some ⟨1, 1, true⟩] ∧
    try_free 0 [some ⟨0, 1, true⟩, some ⟨1, 1, true⟩] = none := by
  refine ⟨by decide, by decide⟩
